/-
Verification of the tavernshell dice engine specification against its Go
source (package `dice`: parser.go and the roller, plus the `number` tracker
package).

Modelling conventions:
* Go strings are modelled as lists of bytes (`List Nat`, each entry < 256),
  because the parser indexes the notation string byte by byte.
* Go `int` is 64-bit two's complement on the targeted platforms.  Dice
  counts, sides and rolled values are modelled as `Nat` (the parser keeps
  counts at most 1000 and sides at most 2^63-1, and a rolled value never
  exceeds the sides, so none of these can overflow when produced by Go).
  The signed modifier and totals are `Int`; every Go addition that can
  overflow — the totals accumulation in the roller and the number
  tracker's bare `+=` — is modelled with an explicit two's-complement wrap
  (`wrap64`).
* All error paths return `none`; the Go error messages themselves are not
  modelled, claims only distinguish success from failure.
* Randomness: `crypto/rand` delivers 8 fresh bytes per die, interpreted as
  a big-endian uint64.  A "sequence of successful random draws" is modelled
  as a function `draws : Nat → Nat` giving the uint64 drawn for the i-th
  die rolled; `rollDie` reduces it modulo `sides` and adds 1 exactly as the
  source does.
-/
import Mathlib

/-- Two's-complement wrap of an integer into `[-2^63, 2^63)`: the effect of
a Go `int` (int64) addition overflowing.  The literals are `2^63` and
`2^64`.  Used for the roller's totals accumulation and the number
tracker's `+=`. -/
def wrap64 (x : Int) : Int :=
  (x + 9223372036854775808) % 18446744073709551616 - 9223372036854775808

namespace Dice

/-- Go `Die` (types.go): a single rolled die. -/
structure Die where
  Value : Nat
  Sides : Nat
  Kept : Bool
deriving DecidableEq, Repr

/-- Go `OpType` (types.go): the four keep/drop operation kinds. -/
inductive OpType where
  | KeepHighest
  | KeepLowest
  | DropHighest
  | DropLowest
deriving DecidableEq, Repr

/-- Go `Operation` (types.go): a keep/drop operation with its count. -/
structure Operation where
  type : OpType
  count : Nat
deriving DecidableEq, Repr

/-- Go `Expression` (types.go): a parsed dice notation. -/
structure Expression where
  Count : Nat
  Sides : Nat
  Modifier : Int
  Operation : Option Operation
  Advantage : Bool
deriving DecidableEq, Repr

/-- Go `Result` (types.go).  `Exp` is the Go field `Expression` (renamed, the
field would shadow the type in Lean).  `KeptTotal` and `Total` are Go
`int` values: `Int` in the model, produced only through `wrap64`-guarded
additions. -/
structure Result where
  Exp : Expression
  Rolls : List Die
  KeptTotal : Int
  Total : Int
deriving DecidableEq, Repr

/-- Go `Roll` (roller.go, legacy format).  `InputText` is the Go field holding
the original input text of the roll. -/
structure Roll where
  InputText : List Nat
  Count : Nat
  Sides : Nat
  Results : List Nat
  Total : Int
deriving DecidableEq, Repr

/-! ### Parser (parser.go) -/

/-- Go `unicode.IsDigit(rune(b))` for a byte `b`: among the code points 0..255
only the ASCII digits are in Unicode category Nd. -/
def isDigitByte (b : Nat) : Bool :=
  decide (48 ≤ b ∧ b ≤ 57)

/-- Numeric value of a nonempty string of ASCII digit bytes, accumulated
left to right exactly as `strconv.Atoi` does. -/
def digitsToNat (ds : List Nat) : Nat :=
  ds.foldl (fun a d => a * 10 + (d - 48)) 0

/-- Go `strconv.Atoi` applied to a nonempty all-digit string: the value, or an
error when it exceeds `math.MaxInt64` (Go's `ErrRange`; the parser treats
any Atoi error as a parse failure). -/
def atoiDigits (ds : List Nat) : Option Nat :=
  let v := digitsToNat ds
  if v ≤ 9223372036854775807 then some v else none

/-- Go `strings.ReplaceAll(s, " ", "")` — the parser removes only the space
character U+0020, not other whitespace. -/
def removeSpaces (s : List Nat) : List Nat :=
  s.filter (fun b => b ≠ 32)

/-- Go `strings.ToLower` on a byte: the ASCII fast path of Go's
`strings.ToLower` (the grammar only ever accepts ASCII bytes; non-ASCII
bytes are rejected by the parser in any position). -/
def toLowerByte (b : Nat) : Nat :=
  if 65 ≤ b ∧ b ≤ 90 then b + 32 else b

/-- Go `strings.ToLower` over the whole byte string. -/
def toLowerStr (s : List Nat) : List Nat :=
  s.map toLowerByte

/-- Step 4 of `Parse`: the trailing-clause loop over `!` (advantage),
`kh`/`kl`/`dh`/`dl` (operation) and `+`/`-` (modifier).  The Go loop
advances a cursor by at least one byte per iteration; `fuel` (called with
the length of the remaining input) bounds the iteration count so the
recursion is structural. -/
def parseClauses (fuel : Nat) (e : Expression) (s : List Nat) : Option Expression :=
  match fuel, s with
  | _, [] => some e
  | 0, _ :: _ => none
  | fuel + 1, c :: rest =>
    if c = 33 then
      parseClauses fuel { e with Advantage := true } rest
    else if c = 107 ∨ c = 100 then
      match rest with
      | [] => none
      | c2 :: rest2 =>
        let ot : Option OpType :=
          if c = 107 ∧ c2 = 104 then some OpType.KeepHighest
          else if c = 107 ∧ c2 = 108 then some OpType.KeepLowest
          else if c = 100 ∧ c2 = 104 then some OpType.DropHighest
          else if c = 100 ∧ c2 = 108 then some OpType.DropLowest
          else none
        match ot with
        | none => none
        | some t =>
          let ds := rest2.takeWhile isDigitByte
          let rest3 := rest2.dropWhile isDigitByte
          if ds = [] then none
          else
            match atoiDigits ds with
            | none => none
            | some n =>
              if n < 1 then none
              else parseClauses fuel { e with Operation := some ⟨t, n⟩ } rest3
    else if c = 43 ∨ c = 45 then
      let ds := rest.takeWhile isDigitByte
      let rest2 := rest.dropWhile isDigitByte
      if ds = [] then none
      else
        match atoiDigits ds with
        | none => none
        | some m =>
          parseClauses fuel { e with Modifier := if c = 45 then -(m : Int) else (m : Int) } rest2
    else none

/-- Steps 1-3 of `Parse` on the space-stripped, lower-cased input: optional
count digits, mandatory `'d'`, mandatory sides digits, then the clause
loop. -/
def parseCore (t : List Nat) : Option Expression :=
  let ds := t.takeWhile isDigitByte
  let t1 := t.dropWhile isDigitByte
  let cnt? : Option Nat :=
    if ds = [] then some 1
    else
      match atoiDigits ds with
      | none => none
      | some c => if c < 1 then none else if 1000 < c then none else some c
  match cnt? with
  | none => none
  | some cnt =>
    match t1 with
    | 100 :: t2 =>
      let ds2 := t2.takeWhile isDigitByte
      let t3 := t2.dropWhile isDigitByte
      if ds2 = [] then none
      else
        match atoiDigits ds2 with
        | none => none
        | some sd =>
          if sd < 2 then none
          else parseClauses t3.length
            { Count := cnt, Sides := sd, Modifier := 0, Operation := none, Advantage := false } t3
    | _ => none

/-- Go `Parse` (parser.go): reject empty input, strip spaces, lower-case,
then scan. -/
def Parse (s : List Nat) : Option Expression :=
  if s = [] then none
  else parseCore (toLowerStr (removeSpaces s))

/-- Following the claim's words, for comparison with the source's
`removeSpaces`: "all whitespace characters removed", i.e. every byte that
`unicode.IsSpace` accepts in the ASCII range (TAB, LF, VT, FF, CR and
SPACE). -/
def stripAllWhitespaceASCII (s : List Nat) : List Nat :=
  s.filter fun b => decide (b ∉ ([9, 10, 11, 12, 13, 32] : List Nat))

/-! ### Roller (roller implementation shipped with parser.go) -/

/-- Default die used only to give `List.getD` a fallback; the indices used
by the roller are always in bounds. -/
def defaultDie : Die := ⟨0, 0, false⟩

/-- Element access `rolls[i]`. -/
def dieAt (rolls : List Die) (i : Nat) : Die :=
  rolls.getD i defaultDie

/-- Go `rollDie` (roller): errors when `sides < 2`; otherwise the uint64 drawn
from `crypto/rand` is reduced modulo `sides` and incremented.  A draw
failure of `crypto/rand` itself is excluded by assumption (the claims
quantify over sequences of successful draws). -/
def rollDie (sides : Nat) (u : Nat) : Option Nat :=
  if sides < 2 then none else some (u % sides + 1)

/-- Go `diceToRoll` in `RollExpression`: doubled when rolling with
advantage. -/
def diceToRoll (e : Expression) : Nat :=
  if e.Advantage then e.Count * 2 else e.Count

/-- The rolling loop of `RollExpression`: dice `i, i+1, ..., i+n-1`, each
initially kept, each drawn via `rollDie`; the first error aborts. -/
def rollFrom (sides : Nat) (draws : Nat → Nat) (i : Nat) : Nat → Option (List Die)
  | 0 => some []
  | n + 1 =>
    match rollDie sides (draws i) with
    | none => none
    | some v =>
      match rollFrom sides draws (i + 1) n with
      | none => none
      | some rest => some ({ Value := v, Sides := sides, Kept := true } :: rest)

/-- All physical dice of one evaluation, in roll order. -/
def rollAll (e : Expression) (draws : Nat → Nat) : Option (List Die) :=
  rollFrom e.Sides draws 0 (diceToRoll e)

/-- The advantage loop of `RollExpression`: consecutive pairs in roll
order; `rolls[i].Value >= rolls[i+1].Value` keeps the first and drops the
second, otherwise the first is dropped.  The list always has even length
when this runs (`count * 2`); a trailing singleton is returned unchanged
(the Go loop would index out of bounds, which is unreachable). -/
def advantageStep : List Die → List Die
  | a :: b :: rest =>
    if a.Value ≥ b.Value then
      a :: { b with Kept := false } :: advantageStep rest
    else
      { a with Kept := false } :: b :: advantageStep rest
  | l => l

/-- Go `applyOperation`'s first loop: indices of currently-kept dice, in
increasing roll order. -/
def keptIndices (rolls : List Die) : List Nat :=
  (List.range rolls.length).filter fun i => (dieAt rolls i).Kept

/-- The comparator passed to `sort.Slice`: compare two indices by the
`Value` of the dice they point at (and nothing else). -/
def valueLE (rolls : List Die) (i j : Nat) : Prop :=
  (dieAt rolls i).Value ≤ (dieAt rolls j).Value

instance (rolls : List Die) : DecidableRel (valueLE rolls) :=
  fun _ _ => Nat.decLe _ _

instance (rolls : List Die) : IsTotal Nat (valueLE rolls) :=
  ⟨fun _ _ => Nat.le_total _ _⟩

instance (rolls : List Die) : IsTrans Nat (valueLE rolls) :=
  ⟨fun _ _ _ h1 h2 => Nat.le_trans h1 h2⟩

/-- The sorted kept-index list.  Go's `sort.Slice` promises only a
permutation that is nondecreasing under the comparator and is documented
as NOT stable (equal elements may be reordered); this embedding fixes
insertion sort as one conforming implementation.  No claim settled below
depends on the order chosen among equal values, except where explicitly
stated relationally. -/
def sortKeptIndices (rolls : List Die) : List Nat :=
  (keptIndices rolls).insertionSort (valueLE rolls)

/-- The final loop of `applyOperation`: `rolls[idx].Kept = false` for each
selected index. -/
def markDropped (rolls : List Die) (idxs : List Nat) : List Die :=
  idxs.foldl (fun rs i => rs.set i { dieAt rs i with Kept := false }) rolls

/-- The `switch op.Type` of `applyOperation`, computing `indicesToDrop`
from the sorted kept-index list, then marking them dropped. -/
def applyOpWith (rolls : List Die) (op : Operation) (sorted : List Nat) : List Die :=
  let len := sorted.length
  let drop : List Nat :=
    match op.type with
    | OpType.KeepHighest =>
      if op.count < len then
        let dropCount := len - op.count
        sorted.take dropCount
      else []
    | OpType.KeepLowest =>
      if op.count < len then
        let dropCount := len - op.count
        sorted.drop (len - dropCount)
      else []
    | OpType.DropHighest =>
      if op.count ≤ len then sorted.drop (len - op.count) else []
    | OpType.DropLowest =>
      if op.count ≤ len then sorted.take op.count else []
  markDropped rolls drop

/-- Go `applyOperation` (roller): early return when nothing is kept, else
sort the kept indices by value and drop per the operation. -/
def applyOperation (rolls : List Die) (op : Operation) : List Die :=
  if keptIndices rolls = [] then rolls
  else applyOpWith rolls op (sortKeptIndices rolls)

/-- The totals loop of `RollExpression`: `keptTotal += die.Value` for each
die with `Kept = true`.  The accumulator is a Go `int`, so every addition
wraps at the int64 boundary. -/
def keptSum (l : List Die) : Int :=
  l.foldl (fun a d => if d.Kept then wrap64 (a + (d.Value : Int)) else a) 0

/-- The mathematical (unbounded) sum of the kept dice values — the spec's
"sum of `value` over dice with `kept = true`".  Go's accumulator `keptSum`
agrees with it exactly when it fits in an int64
(`keptSum_eq_of_le`). -/
def keptValuesSum (l : List Die) : Nat :=
  ((l.filter fun d => d.Kept).map fun d => d.Value).sum

/-- Number of dice currently marked kept. -/
def keptCount (l : List Die) : Nat :=
  (l.filter fun d => d.Kept).length

/-- The outcome of one advantage pair `(2i, 2i+1)`: exactly one die kept,
the kept one at least as large as the dropped one, and on a tie the first
of the pair is the kept one (the second disjunct requires a strictly
larger second die). -/
def advPair (a b : Die) : Prop :=
  (a.Kept = true ∧ b.Kept = false ∧ b.Value ≤ a.Value) ∨
  (a.Kept = false ∧ b.Kept = true ∧ a.Value < b.Value)

/-- The claim's "operation count is not satisfiable" condition:
`n ≥` number kept for the Keep variants, `n >` number kept for the Drop
variants (`keptIndices` is the roller's own list of kept dice, so its
length is the number of kept dice). -/
def unsatisfiable (rolls : List Die) (op : Operation) : Prop :=
  match op.type with
  | OpType.KeepHighest => (keptIndices rolls).length ≤ op.count
  | OpType.KeepLowest => (keptIndices rolls).length ≤ op.count
  | OpType.DropHighest => (keptIndices rolls).length < op.count
  | OpType.DropLowest => (keptIndices rolls).length < op.count

/-- Go `RollExpression` (roller): roll, apply advantage, apply the operation,
compute totals.  The `nil` expression guard has no counterpart (Lean
expressions cannot be nil). -/
def RollExpression (e : Expression) (draws : Nat → Nat) : Option Result :=
  match rollAll e draws with
  | none => none
  | some rolls0 =>
    let rolls1 := if e.Advantage then advantageStep rolls0 else rolls0
    let rolls2 :=
      match e.Operation with
      | some op => applyOperation rolls1 op
      | none => rolls1
    let keptTotal := keptSum rolls2
    some { Exp := e, Rolls := rolls2, KeptTotal := keptTotal,
           Total := wrap64 (keptTotal + e.Modifier) }

/-- The conversion loop of `RollDice`: kept values in roll order, and the
same wrapping `total += die.Value` chain over the kept dice as the totals
loop of `RollExpression` (expressed with `keptSum`), followed by the
wrapping `total += expr.Modifier`. -/
def toRoll (text : List Nat) (e : Expression) (r : Result) : Roll :=
  let results := (r.Rolls.filter fun d => d.Kept).map fun d => d.Value
  { InputText := text, Count := e.Count, Sides := e.Sides,
    Results := results, Total := wrap64 (keptSum r.Rolls + e.Modifier) }

/-- Go `RollDice` (roller, legacy): parse, evaluate, convert. -/
def RollDice (text : List Nat) (draws : Nat → Nat) : Option Roll :=
  match Parse text with
  | none => none
  | some e =>
    match RollExpression e draws with
    | none => none
    | some r => some (toRoll text e r)

end Dice

namespace NumberTracker

/-- Go `Tracker` (core/tracker/number): a named numeric resource.  `Current`
and `Max` are Go `int` (64-bit two's complement); the stored value is kept
as an `Int` known to lie in the int64 range whenever it was produced by Go
code. -/
structure Tracker where
  ID : String
  Name : String
  Current : Int
  Max : Int
  Pinned : Bool
deriving DecidableEq, Repr

/-- Go `Set` (number/manager.go): store the value, touch nothing else.  The
argument is already a Go `int`, so no wrap occurs here. -/
def Set (t : Tracker) (value : Int) : Tracker :=
  { t with Current := value }

/-- Go `Adjust` (number/manager.go): `t.Current += delta`.  The Go addition of
two `int` values wraps at 2^64. -/
def Adjust (t : Tracker) (delta : Int) : Tracker :=
  { t with Current := wrap64 (t.Current + delta) }

end NumberTracker

namespace Dice

/-- Go `toLowerByte` maps a byte to the space character only if it already was
the space character. -/
theorem toLowerByte_eq_32 (b : Nat) : toLowerByte b = 32 ↔ b = 32 := by
  unfold toLowerByte
  split <;> omega

/-- Go `toLowerByte` is idempotent. -/
theorem toLowerByte_idem (b : Nat) : toLowerByte (toLowerByte b) = toLowerByte b := by
  by_cases h : 65 ≤ b ∧ b ≤ 90
  · have h2 : ¬ (65 ≤ b + 32 ∧ b + 32 ≤ 90) := by omega
    simp [toLowerByte, h, h2]
    omega
  · simp [toLowerByte, h]

/-- Stripping spaces twice is the same as stripping them once. -/
theorem removeSpaces_idem (s : List Nat) : removeSpaces (removeSpaces s) = removeSpaces s := by
  simp [removeSpaces, List.filter_filter]

/-- Space stripping commutes with lower-casing. -/
theorem removeSpaces_toLowerStr (s : List Nat) :
    removeSpaces (toLowerStr s) = toLowerStr (removeSpaces s) := by
  induction s with
  | nil => rfl
  | cons b rest ih =>
    by_cases hb : b = 32
    · subst hb
      simp [removeSpaces, toLowerStr, toLowerByte] at ih ⊢
      simpa [removeSpaces, toLowerStr] using ih
    · have hb' : toLowerByte b ≠ 32 := fun h => hb ((toLowerByte_eq_32 b).mp h)
      simp [removeSpaces, toLowerStr, hb, hb'] at ih ⊢
      simpa [removeSpaces, toLowerStr] using ih

/-- Lower-casing is idempotent. -/
theorem toLowerStr_idem (s : List Nat) : toLowerStr (toLowerStr s) = toLowerStr s := by
  simp [toLowerStr, List.map_map, Function.comp_def, toLowerByte_idem]

theorem parseCore_nil : parseCore [] = none := rfl

theorem toLowerStr_nil : toLowerStr [] = [] := rfl

end Dice


/-- Wrapping a value already in the int64 range is the identity. -/
theorem wrap64_eq_self {x : Int} (h1 : -9223372036854775808 ≤ x)
    (h2 : x < 9223372036854775808) : wrap64 x = x := by
  unfold wrap64
  have h3 : (0 : Int) ≤ x + 9223372036854775808 := by omega
  have h4 : x + 9223372036854775808 < 18446744073709551616 := by omega
  rw [Int.emod_eq_of_lt h3 h4]
  omega

/-- Claim C6: `Parse("2d6")` yields count 2, sides 6, no modifier, no
operation, no advantage; and `Parse` rejects `""`, `"2d"`, `"d"`, `"2x6"`,
`"0d6"`, `"2d1"` and `"1001d6"` (the inputs are written as their ASCII
bytes). -/
theorem parse_concrete_scenarios :
    Dice.Parse [50, 100, 54] =
      some { Count := 2, Sides := 6, Modifier := 0, Operation := none, Advantage := false } ∧
    Dice.Parse [] = none ∧
    Dice.Parse [50, 100] = none ∧
    Dice.Parse [100] = none ∧
    Dice.Parse [50, 120, 54] = none ∧
    Dice.Parse [48, 100, 54] = none ∧
    Dice.Parse [50, 100, 49] = none ∧
    Dice.Parse [49, 48, 48, 49, 100, 54] = none := by
  decide

/-- Claim C7 (counterexample): the claim fails for the input `"\t2d6"`
(bytes `[9, 50, 100, 54]`): the parser strips only the space character, so
the tab makes `Parse` fail, while `Parse` on the same text with all
whitespace characters removed ("2d6") succeeds. -/
theorem parse_whitespace_counterexample :
    Dice.stripAllWhitespaceASCII [9, 50, 100, 54] = [50, 100, 54] ∧
    Dice.Parse [9, 50, 100, 54] = none ∧
    Dice.Parse [50, 100, 54] =
      some { Count := 2, Sides := 6, Modifier := 0, Operation := none, Advantage := false } ∧
    Dice.Parse [9, 50, 100, 54] ≠ Dice.Parse (Dice.stripAllWhitespaceASCII [9, 50, 100, 54]) := by
  decide

/-- Claim C7 (amended): for every input string, `Parse` returns the same
outcome as `Parse` on the text with all SPACE characters (U+0020, the only
whitespace the code strips) removed, and the same outcome as `Parse` on
the lower-cased text. -/
theorem parse_space_and_case_insensitive (s : List Nat) :
    Dice.Parse s = Dice.Parse (Dice.removeSpaces s) ∧
    Dice.Parse s = Dice.Parse (Dice.toLowerStr s) := by
  refine ⟨?_, ?_⟩
  · by_cases hs : s = []
    · subst hs
      rfl
    · by_cases h2 : Dice.removeSpaces s = []
      · simp only [Dice.Parse, if_neg hs, h2, if_pos]
        rfl
      · simp only [Dice.Parse, if_neg hs, if_neg h2, Dice.removeSpaces_idem]
  · by_cases hs : s = []
    · subst hs
      rfl
    · have hl : Dice.toLowerStr s ≠ [] := by
        unfold Dice.toLowerStr
        simpa using hs
      simp only [Dice.Parse, if_neg hs, if_neg hl, Dice.removeSpaces_toLowerStr,
        Dice.toLowerStr_idem]

/-- Claim C10 (counterexample): `Adjust` is a Go `int` addition, which wraps
at the 64-bit boundary, so `Current` is not "exactly Current + delta" at
the maximal int64 value. -/
theorem tracker_adjust_overflow_counterexample :
    (NumberTracker.Adjust
        { ID := "t1", Name := "HP", Current := 9223372036854775807, Max := 50, Pinned := false }
        1).Current = -9223372036854775808 ∧
    (NumberTracker.Adjust
        { ID := "t1", Name := "HP", Current := 9223372036854775807, Max := 50, Pinned := false }
        1).Current ≠ 9223372036854775807 + 1 := by
  decide

/-- Claim C10 (amended): whenever `Current + delta` fits in an int64,
`Adjust` stores exactly `Current + delta` — unclamped, so it may be
negative or exceed `Max` — and leaves `Name`, `Max`, `Pinned` and `ID`
unchanged; `Set` stores its argument into `Current` unchecked and changes
no other field. -/
theorem tracker_adjust_set_effects (t : NumberTracker.Tracker) (delta v : Int)
    (h1 : -9223372036854775808 ≤ t.Current + delta)
    (h2 : t.Current + delta < 9223372036854775808) :
    (NumberTracker.Adjust t delta).Current = t.Current + delta ∧
    (NumberTracker.Adjust t delta).Name = t.Name ∧
    (NumberTracker.Adjust t delta).Max = t.Max ∧
    (NumberTracker.Adjust t delta).Pinned = t.Pinned ∧
    (NumberTracker.Adjust t delta).ID = t.ID ∧
    (NumberTracker.Set t v).Current = v ∧
    (NumberTracker.Set t v).Name = t.Name ∧
    (NumberTracker.Set t v).Max = t.Max ∧
    (NumberTracker.Set t v).Pinned = t.Pinned ∧
    (NumberTracker.Set t v).ID = t.ID := by
  refine ⟨?_, rfl, rfl, rfl, rfl, rfl, rfl, rfl, rfl, rfl⟩
  exact wrap64_eq_self h1 h2

/-- Claim C10 (witness): the amended theorem applied to the tracker
`HP 45/50` with `delta = -10` and `Set 30`. -/
theorem tracker_adjust_set_effects_witness :
    (NumberTracker.Adjust
        { ID := "t1", Name := "HP", Current := 45, Max := 50, Pinned := false }
        (-10)).Current = 45 + (-10) ∧
    (NumberTracker.Adjust
        { ID := "t1", Name := "HP", Current := 45, Max := 50, Pinned := false }
        (-10)).Name = "HP" ∧
    (NumberTracker.Adjust
        { ID := "t1", Name := "HP", Current := 45, Max := 50, Pinned := false }
        (-10)).Max = 50 ∧
    (NumberTracker.Adjust
        { ID := "t1", Name := "HP", Current := 45, Max := 50, Pinned := false }
        (-10)).Pinned = false ∧
    (NumberTracker.Adjust
        { ID := "t1", Name := "HP", Current := 45, Max := 50, Pinned := false }
        (-10)).ID = "t1" ∧
    (NumberTracker.Set
        { ID := "t1", Name := "HP", Current := 45, Max := 50, Pinned := false }
        30).Current = 30 ∧
    (NumberTracker.Set
        { ID := "t1", Name := "HP", Current := 45, Max := 50, Pinned := false }
        30).Name = "HP" ∧
    (NumberTracker.Set
        { ID := "t1", Name := "HP", Current := 45, Max := 50, Pinned := false }
        30).Max = 50 ∧
    (NumberTracker.Set
        { ID := "t1", Name := "HP", Current := 45, Max := 50, Pinned := false }
        30).Pinned = false ∧
    (NumberTracker.Set
        { ID := "t1", Name := "HP", Current := 45, Max := 50, Pinned := false }
        30).ID = "t1" :=
  tracker_adjust_set_effects
    { ID := "t1", Name := "HP", Current := 45, Max := 50, Pinned := false }
    (-10) 30 (by decide) (by decide)

namespace Dice

/-- With at least two sides every die roll succeeds; the rolled dice are
all initially kept and their values lie in `[1, sides]`. -/
theorem rollFrom_some (sides : Nat) (draws : Nat → Nat) (h : 2 ≤ sides) :
    ∀ (n i : Nat), ∃ l, rollFrom sides draws i n = some l ∧ l.length = n ∧
      ∀ d ∈ l, d.Kept = true ∧ 1 ≤ d.Value ∧ d.Value ≤ sides
  | 0, i => ⟨[], rfl, rfl, by simp⟩
  | n + 1, i => by
    obtain ⟨rest, hrest, hlen, hprops⟩ := rollFrom_some sides draws h n (i + 1)
    have hs : ¬ sides < 2 := Nat.not_lt.mpr h
    refine ⟨{ Value := draws i % sides + 1, Sides := sides, Kept := true } :: rest, ?_, ?_, ?_⟩
    · simp [rollFrom, rollDie, hs, hrest]
    · simp [hlen]
    · intro d hd
      rcases List.mem_cons.mp hd with h1 | h1
      · subst h1
        have hlt := Nat.mod_lt (draws i) (show 0 < sides by omega)
        refine ⟨rfl, ?_, ?_⟩
        · show 1 ≤ draws i % sides + 1
          omega
        · show draws i % sides + 1 ≤ sides
          omega
      · exact hprops d h1

/-- The advantage pass only flips `Kept` flags; it never changes the number
of dice. -/
theorem length_advantageStep : ∀ l : List Die, (advantageStep l).length = l.length
  | [] => rfl
  | [a] => rfl
  | a :: b :: rest => by
    have ih := length_advantageStep rest
    by_cases hv : a.Value ≥ b.Value <;> simp [advantageStep, hv, ih]

/-- On a list of all-kept dice the advantage pass establishes `advPair` on
every consecutive pair `(2i, 2i+1)`. -/
theorem advantageStep_pairs : ∀ (l : List Die), (∀ d ∈ l, d.Kept = true) →
    ∀ i, 2 * i + 1 < l.length →
    advPair (dieAt (advantageStep l) (2 * i)) (dieAt (advantageStep l) (2 * i + 1))
  | [], _, i, h => by simp at h
  | [a], _, i, h => by simp at h
  | a :: b :: rest, hk, 0, _ => by
    have ha : a.Kept = true := hk a (by simp)
    have hb : b.Kept = true := hk b (by simp)
    by_cases hv : a.Value ≥ b.Value
    · left
      simp [advantageStep, hv, dieAt, ha]
    · right
      simp [advantageStep, hv, dieAt, hb]
      omega
  | a :: b :: rest, hk, i + 1, h => by
    have hk' : ∀ d ∈ rest, d.Kept = true := fun d hd => hk d (by simp [hd])
    have h' : 2 * i + 1 < rest.length := by
      simp at h
      omega
    have ih := advantageStep_pairs rest hk' i h'
    have e1 : 2 * (i + 1) = 2 * i + 1 + 1 := by ring
    have e2 : 2 * (i + 1) + 1 = 2 * i + 1 + 1 + 1 := by ring
    by_cases hv : a.Value ≥ b.Value <;>
      simpa [advantageStep, hv, dieAt, e1, e2] using ih

/-- On an all-kept list of even length `2n`, the advantage pass keeps
exactly `n` dice. -/
theorem advantageStep_keptCount : ∀ (l : List Die) (n : Nat), (∀ d ∈ l, d.Kept = true) →
    l.length = 2 * n → keptCount (advantageStep l) = n
  | [], n, _, h => by
    simp at h
    simp [advantageStep, keptCount]
    omega
  | [a], n, _, h => by
    simp at h
    omega
  | a :: b :: rest, n, hk, h => by
    have ha : a.Kept = true := hk a (by simp)
    have hb : b.Kept = true := hk b (by simp)
    have hk' : ∀ d ∈ rest, d.Kept = true := fun d hd => hk d (by simp [hd])
    have hn : 1 ≤ n := by
      simp at h
      omega
    have h' : rest.length = 2 * (n - 1) := by
      simp at h
      omega
    have ih := advantageStep_keptCount rest (n - 1) hk' h'
    by_cases hv : a.Value ≥ b.Value
    · simp [advantageStep, hv, keptCount, List.filter_cons, ha] at ih ⊢
      omega
    · simp [advantageStep, hv, keptCount, List.filter_cons, hb] at ih ⊢
      omega

/-- The advantage pass changes no die's value: any value predicate holding
on the input holds on the output. -/
theorem advantageStep_values (P : Nat → Prop) : ∀ (l : List Die), (∀ d ∈ l, P d.Value) →
    ∀ d ∈ advantageStep l, P d.Value
  | [], _, d, hd => by simp [advantageStep] at hd
  | [a], h, d, hd => by
    simp [advantageStep] at hd
    subst hd
    exact h _ (by simp)
  | a :: b :: rest, h, d, hd => by
    have ih := advantageStep_values P rest (fun d' hd' => h d' (by simp [hd']))
    by_cases hv : a.Value ≥ b.Value <;> simp [advantageStep, hv] at hd <;>
      rcases hd with h1 | h1 | h1
    · exact h1 ▸ h a (by simp)
    · have : d.Value = b.Value := by rw [h1]
      exact this ▸ h b (by simp)
    · exact ih d h1
    · have : d.Value = a.Value := by rw [h1]
      exact this ▸ h a (by simp)
    · exact h1 ▸ h b (by simp)
    · exact ih d h1

/-- Kept dice with values in `[1, s]` contribute between `1` and `s` each:
the mathematical kept sum lies between the kept count and `s` times the
kept count. -/
theorem keptValuesSum_bounds : ∀ (l : List Die) (s : Nat),
    (∀ d ∈ l, 1 ≤ d.Value ∧ d.Value ≤ s) →
    keptCount l ≤ keptValuesSum l ∧ keptValuesSum l ≤ s * keptCount l
  | [], s, _ => by simp [keptCount, keptValuesSum]
  | d :: rest, s, h => by
    have hd := h d (by simp)
    have ih := keptValuesSum_bounds rest s (fun d' hd' => h d' (by simp [hd']))
    by_cases hk : d.Kept
    · simp [keptCount, keptValuesSum, List.filter_cons, hk] at ih ⊢
      rw [Nat.mul_succ]
      omega
    · simpa [keptCount, keptValuesSum, List.filter_cons, hk] using ih

/-- The wrapping accumulation of `keptSum`, started from any in-range
accumulator, computes the mathematical sum as long as that sum stays in
the int64 range (the partial sums are monotone, so only the final bound is
needed). -/
theorem keptSum_go : ∀ (l : List Die) (acc : Nat),
    acc + keptValuesSum l ≤ 9223372036854775807 →
    l.foldl (fun a d => if d.Kept then wrap64 (a + (d.Value : Int)) else a) (acc : Int)
      = ((acc + keptValuesSum l : Nat) : Int)
  | [], acc, _ => by simp [keptValuesSum]
  | d :: rest, acc, h => by
    by_cases hk : d.Kept
    · have hsum : keptValuesSum (d :: rest) = d.Value + keptValuesSum rest := by
        simp [keptValuesSum, List.filter_cons, hk]
      have hbound : acc + d.Value ≤ 9223372036854775807 := by
        rw [hsum] at h
        omega
      have hstep : wrap64 ((acc : Int) + (d.Value : Int)) = ((acc + d.Value : Nat) : Int) := by
        have hcast : ((acc : Int) + (d.Value : Int)) = ((acc + d.Value : Nat) : Int) := by
          omega
        rw [hcast]
        exact wrap64_eq_self (by omega) (by omega)
      have ih := keptSum_go rest (acc + d.Value) (by rw [hsum] at h; omega)
      simp only [List.foldl_cons, if_pos hk, hstep, ih, hsum]
      omega
    · have hsum : keptValuesSum (d :: rest) = keptValuesSum rest := by
        simp [keptValuesSum, List.filter_cons, hk]
      have ih := keptSum_go rest acc (by rw [hsum] at h; omega)
      simp only [List.foldl_cons, if_neg hk, ih, hsum]

/-- Go's wrapping `keptTotal` accumulator equals the mathematical sum of
the kept values whenever that sum fits in an int64. -/
theorem keptSum_eq_of_le (l : List Die) (h : keptValuesSum l ≤ 9223372036854775807) :
    keptSum l = (keptValuesSum l : Int) := by
  have h0 := keptSum_go l 0 (by omega)
  simpa [keptSum] using h0

/-- A list of all-kept dice filters to itself. -/
theorem filter_kept_of_all {l : List Die} (h : ∀ d ∈ l, d.Kept = true) :
    (l.filter fun d => d.Kept) = l :=
  List.filter_eq_self.mpr h

end Dice


namespace Dice

/-- Marking dice dropped never changes the number of dice. -/
theorem length_markDropped : ∀ (idxs : List Nat) (rolls : List Die),
    (markDropped rolls idxs).length = rolls.length
  | [], _ => rfl
  | i :: is, rolls => by
    have ih := length_markDropped is (rolls.set i { dieAt rolls i with Kept := false })
    simp only [markDropped, List.foldl_cons] at ih ⊢
    rw [ih, List.length_set]

/-- Go `applyOperation` never changes the number of dice. -/
theorem length_applyOperation (rolls : List Die) (op : Operation) :
    (applyOperation rolls op).length = rolls.length := by
  unfold applyOperation
  split
  · rfl
  · unfold applyOpWith
    exact length_markDropped _ _

/-- Unfolding `RollExpression` once the dice have been rolled: the result's
fields in terms of the intermediate lists. -/
theorem rollExpression_some (e : Expression) (draws : Nat → Nat) (rolls0 : List Die)
    (h : rollAll e draws = some rolls0) :
    RollExpression e draws =
      some { Exp := e
             Rolls := match e.Operation with
                      | some op => applyOperation (if e.Advantage then advantageStep rolls0 else rolls0) op
                      | none => if e.Advantage then advantageStep rolls0 else rolls0
             KeptTotal := keptSum (match e.Operation with
                      | some op => applyOperation (if e.Advantage then advantageStep rolls0 else rolls0) op
                      | none => if e.Advantage then advantageStep rolls0 else rolls0)
             Total := wrap64 (keptSum (match e.Operation with
                      | some op => applyOperation (if e.Advantage then advantageStep rolls0 else rolls0) op
                      | none => if e.Advantage then advantageStep rolls0 else rolls0) + e.Modifier) } := by
  unfold RollExpression
  rw [h]

/-- Inverting a successful evaluation: the totals always satisfy the
bookkeeping equations of the source. -/
theorem rollExpression_inv (e : Expression) (draws : Nat → Nat) (r : Result)
    (h : RollExpression e draws = some r) :
    r.Exp = e ∧ r.KeptTotal = keptSum r.Rolls ∧ r.Total = wrap64 (r.KeptTotal + e.Modifier) := by
  unfold RollExpression at h
  cases hr : rollAll e draws with
  | none =>
    rw [hr] at h
    cases h
  | some rolls0 =>
    rw [hr] at h
    cases h
    exact ⟨rfl, rfl, rfl⟩

end Dice


namespace Dice

/-- Any expression with at least two sides evaluates successfully. -/
theorem rollExpression_succeeds (e : Expression) (draws : Nat → Nat) (h3 : 2 ≤ e.Sides) :
    ∃ r, RollExpression e draws = some r := by
  obtain ⟨rolls0, hroll, -, -⟩ := rollFrom_some e.Sides draws h3 (diceToRoll e) 0
  exact ⟨_, rollExpression_some e draws rolls0 hroll⟩

/-- An unsatisfiable keep/drop request leaves every die untouched. -/
theorem applyOperation_noop_of_unsat (rolls : List Die) (op : Operation)
    (hunsat : unsatisfiable rolls op) : applyOperation rolls op = rolls := by
  unfold applyOperation
  split
  · rfl
  · have hlen : (sortKeptIndices rolls).length = (keptIndices rolls).length :=
      List.length_insertionSort _ _
    rcases op with ⟨t, n⟩
    cases t
    · have hnot : ¬ n < (sortKeptIndices rolls).length := by
        rw [hlen]
        exact Nat.not_lt.mpr (by simpa [unsatisfiable] using hunsat)
      simp [applyOpWith, hnot, markDropped]
    · have hnot : ¬ n < (sortKeptIndices rolls).length := by
        rw [hlen]
        exact Nat.not_lt.mpr (by simpa [unsatisfiable] using hunsat)
      simp [applyOpWith, hnot, markDropped]
    · have hnot : ¬ n ≤ (sortKeptIndices rolls).length := by
        rw [hlen]
        exact Nat.not_le.mpr (by simpa [unsatisfiable] using hunsat)
      simp [applyOpWith, hnot, markDropped]
    · have hnot : ¬ n ≤ (sortKeptIndices rolls).length := by
        rw [hlen]
        exact Nat.not_le.mpr (by simpa [unsatisfiable] using hunsat)
      simp [applyOpWith, hnot, markDropped]

end Dice

/-- Claim C1 (counterexample): Go accumulates `keptTotal += die.Value` and
`total := keptTotal + expr.Modifier` in a wrapping 64-bit `int`, and the
wrap is reachable under the claim's own validity hypotheses (the parser
admits `Sides` and `Modifier` up to 2^63-1).  `2d9223372036854775807` with
maximal draws gives `KeptTotal = -2` while the sum of the kept values is
`2^64 - 2`; and `1d2+9223372036854775807` with a zero draw gives
`Total = -2^63` while `KeptTotal + Modifier = 2^63`. -/
theorem rollExpression_totals_counterexample :
    ((Dice.RollExpression
        { Count := 2, Sides := 9223372036854775807, Modifier := 0,
          Operation := none, Advantage := false }
        (fun _ => 9223372036854775806)).map fun r =>
      (r.KeptTotal, (Dice.keptValuesSum r.Rolls : Int))) =
      some (-2, 18446744073709551614) ∧
    ((-2 : Int) ≠ 18446744073709551614) ∧
    ((Dice.RollExpression
        { Count := 1, Sides := 2, Modifier := 9223372036854775807,
          Operation := none, Advantage := false }
        (fun _ => 0)).map fun r => (r.Total, r.KeptTotal + 9223372036854775807)) =
      some (-9223372036854775808, 9223372036854775808) ∧
    ((-9223372036854775808 : Int) ≠ 9223372036854775808) := by
  decide

/-- Claim C1 (amended): for every valid expression (counts, sides and the
modifier within the ranges the parser's int64 fields admit) and every
sequence of successful draws, evaluation succeeds and the result satisfies
`KeptTotal =` the wrapping int64 accumulation of `Value` over kept dice —
exactly their sum whenever that sum fits in an int64 — and
`Total = wrap64 (KeptTotal + Modifier)` — exactly `KeptTotal + Modifier`
whenever that fits in an int64; with no operation and no advantage every
rolled die stays kept, so the (in-range) `KeptTotal` is the sum of all
rolled values. -/
theorem rollExpression_totals (e : Dice.Expression) (draws : Nat → Nat)
    (_h1 : 1 ≤ e.Count) (_h2 : e.Count ≤ 1000) (h3 : 2 ≤ e.Sides)
    (_h4 : ∀ op, e.Operation = some op → 1 ≤ op.count)
    (_h5 : e.Sides ≤ 9223372036854775807)
    (_h6 : -9223372036854775808 ≤ e.Modifier)
    (_h7 : e.Modifier < 9223372036854775808) :
    ∃ r, Dice.RollExpression e draws = some r ∧
      r.KeptTotal = Dice.keptSum r.Rolls ∧
      (Dice.keptValuesSum r.Rolls ≤ 9223372036854775807 →
        r.KeptTotal = (Dice.keptValuesSum r.Rolls : Int)) ∧
      r.Total = wrap64 (r.KeptTotal + e.Modifier) ∧
      (-9223372036854775808 ≤ r.KeptTotal + e.Modifier →
        r.KeptTotal + e.Modifier < 9223372036854775808 →
        r.Total = r.KeptTotal + e.Modifier) ∧
      (e.Operation = none → e.Advantage = false →
        (∀ d ∈ r.Rolls, d.Kept = true) ∧
        (Dice.keptValuesSum r.Rolls ≤ 9223372036854775807 →
          r.KeptTotal = (((r.Rolls.map fun d => d.Value).sum : Nat) : Int))) := by
  obtain ⟨rolls0, hroll, hlen, hprops⟩ := Dice.rollFrom_some e.Sides draws h3 (Dice.diceToRoll e) 0
  refine ⟨_, Dice.rollExpression_some e draws rolls0 hroll, rfl,
    fun h => Dice.keptSum_eq_of_le _ h, rfl, fun hlo hhi => wrap64_eq_self hlo hhi, ?_⟩
  intro hop hadv
  simp only [hop, hadv, Bool.false_eq_true, if_false]
  have hkept : ∀ d ∈ rolls0, d.Kept = true := fun d hd => (hprops d hd).1
  refine ⟨hkept, ?_⟩
  intro hle
  rw [Dice.keptSum_eq_of_le _ hle]
  unfold Dice.keptValuesSum
  rw [Dice.filter_kept_of_all hkept]

/-- Claim C1 (witness): the amended theorem at `1d2` with all-zero
draws. -/
theorem rollExpression_totals_witness :
    ∃ r, Dice.RollExpression
        { Count := 1, Sides := 2, Modifier := 0, Operation := none, Advantage := false }
        (fun _ => 0) = some r ∧
      r.KeptTotal = Dice.keptSum r.Rolls ∧
      (Dice.keptValuesSum r.Rolls ≤ 9223372036854775807 →
        r.KeptTotal = (Dice.keptValuesSum r.Rolls : Int)) ∧
      r.Total = wrap64 (r.KeptTotal + 0) ∧
      (-9223372036854775808 ≤ r.KeptTotal + 0 →
        r.KeptTotal + 0 < 9223372036854775808 →
        r.Total = r.KeptTotal + 0) ∧
      ((none : Option Dice.Operation) = none → false = false →
        (∀ d ∈ r.Rolls, d.Kept = true) ∧
        (Dice.keptValuesSum r.Rolls ≤ 9223372036854775807 →
          r.KeptTotal = (((r.Rolls.map fun d => d.Value).sum : Nat) : Int))) :=
  rollExpression_totals
    { Count := 1, Sides := 2, Modifier := 0, Operation := none, Advantage := false }
    (fun _ => 0) (by decide) (by decide) (by decide) (fun op h => by cases h)
    (by decide) (by decide) (by decide)

/-- Claim C2: with advantage, exactly `2 * Count` physical dice are rolled
(both in the raw roll and in the returned result), and after the advantage
step each consecutive pair `(2i, 2i+1)` has exactly one kept die whose
value is at least the dropped one's; on a tie the first of the pair stays
kept and the second is dropped. -/
theorem rollExpression_advantage_pairing (e : Dice.Expression) (draws : Nat → Nat)
    (h3 : 2 ≤ e.Sides) (hA : e.Advantage = true) :
    ∃ rolls0, Dice.rollAll e draws = some rolls0 ∧
      rolls0.length = 2 * e.Count ∧
      (∀ r, Dice.RollExpression e draws = some r → r.Rolls.length = 2 * e.Count) ∧
      (∀ i, 2 * i + 1 < rolls0.length →
        Dice.advPair (Dice.dieAt (Dice.advantageStep rolls0) (2 * i))
          (Dice.dieAt (Dice.advantageStep rolls0) (2 * i + 1))) ∧
      (∀ i, 2 * i + 1 < rolls0.length →
        (Dice.dieAt (Dice.advantageStep rolls0) (2 * i)).Value =
          (Dice.dieAt (Dice.advantageStep rolls0) (2 * i + 1)).Value →
        (Dice.dieAt (Dice.advantageStep rolls0) (2 * i)).Kept = true ∧
        (Dice.dieAt (Dice.advantageStep rolls0) (2 * i + 1)).Kept = false) := by
  obtain ⟨rolls0, hroll, hlen, hprops⟩ := Dice.rollFrom_some e.Sides draws h3 (Dice.diceToRoll e) 0
  have hlen2 : rolls0.length = 2 * e.Count := by
    rw [hlen]
    simp [Dice.diceToRoll, hA, Nat.mul_comm]
  have hkept : ∀ d ∈ rolls0, d.Kept = true := fun d hd => (hprops d hd).1
  refine ⟨rolls0, hroll, hlen2, ?_, ?_, ?_⟩
  · intro r hr
    rw [Dice.rollExpression_some e draws rolls0 hroll] at hr
    cases hr
    cases hop : e.Operation with
    | none => simp [hop, hA, Dice.length_advantageStep, hlen2]
    | some op =>
      simp [hop, hA, Dice.length_applyOperation, Dice.length_advantageStep, hlen2]
  · intro i hi
    exact Dice.advantageStep_pairs rolls0 hkept i hi
  · intro i hi hveq
    rcases Dice.advantageStep_pairs rolls0 hkept i hi with ⟨k1, k2, -⟩ | ⟨-, -, hlt⟩
    · exact ⟨k1, k2⟩
    · omega

/-- Claim C2 (witness): `1d2` with advantage and all-zero draws. -/
theorem rollExpression_advantage_pairing_witness :
    ∃ rolls0, Dice.rollAll
        { Count := 1, Sides := 2, Modifier := 0, Operation := none, Advantage := true }
        (fun _ => 0) = some rolls0 ∧
      rolls0.length = 2 * 1 ∧
      (∀ r, Dice.RollExpression
          { Count := 1, Sides := 2, Modifier := 0, Operation := none, Advantage := true }
          (fun _ => 0) = some r → r.Rolls.length = 2 * 1) ∧
      (∀ i, 2 * i + 1 < rolls0.length →
        Dice.advPair (Dice.dieAt (Dice.advantageStep rolls0) (2 * i))
          (Dice.dieAt (Dice.advantageStep rolls0) (2 * i + 1))) ∧
      (∀ i, 2 * i + 1 < rolls0.length →
        (Dice.dieAt (Dice.advantageStep rolls0) (2 * i)).Value =
          (Dice.dieAt (Dice.advantageStep rolls0) (2 * i + 1)).Value →
        (Dice.dieAt (Dice.advantageStep rolls0) (2 * i)).Kept = true ∧
        (Dice.dieAt (Dice.advantageStep rolls0) (2 * i + 1)).Kept = false) :=
  rollExpression_advantage_pairing
    { Count := 1, Sides := 2, Modifier := 0, Operation := none, Advantage := true }
    (fun _ => 0) (by decide) rfl

/-- Claim C4: an unsatisfiable operation count (`n ≥` kept dice for the Keep
variants, `n >` kept dice for the Drop variants) drops no further dice,
and evaluation still returns a result rather than an error. -/
theorem applyOperation_unsatisfiable_noop :
    (∀ (rolls : List Dice.Die) (op : Dice.Operation),
        Dice.unsatisfiable rolls op → Dice.applyOperation rolls op = rolls) ∧
    (∀ (e : Dice.Expression) (draws : Nat → Nat),
        1 ≤ e.Count → e.Count ≤ 1000 → 2 ≤ e.Sides →
        ∃ r, Dice.RollExpression e draws = some r) :=
  ⟨fun rolls op h => Dice.applyOperation_noop_of_unsat rolls op h,
   fun e draws _ _ h3 => Dice.rollExpression_succeeds e draws h3⟩

/-- Claim C4 (witness): `KeepHighest 5` on a single kept die is a no-op, and
`1d2` evaluates successfully. -/
theorem applyOperation_unsatisfiable_noop_witness :
    Dice.applyOperation [⟨3, 6, true⟩] ⟨Dice.OpType.KeepHighest, 5⟩ = [⟨3, 6, true⟩] ∧
    ∃ r, Dice.RollExpression
        { Count := 1, Sides := 2, Modifier := 0, Operation := none, Advantage := false }
        (fun _ => 0) = some r :=
  ⟨applyOperation_unsatisfiable_noop.1 [⟨3, 6, true⟩] ⟨Dice.OpType.KeepHighest, 5⟩
      (by show (Dice.keptIndices [⟨3, 6, true⟩]).length ≤ 5; decide),
   applyOperation_unsatisfiable_noop.2
      { Count := 1, Sides := 2, Modifier := 0, Operation := none, Advantage := false }
      (fun _ => 0) (by decide) (by decide) (by decide)⟩

/-- Claim C5: for the same rolled dice, `KeepHighest(n)` and
`DropLowest(len - n)` (with `len` the number of kept dice) mark exactly
the same dice dropped — shown as equality of the two resulting lists, for
every `n`; and when `n ≥ len` the `KeepHighest(n)` application drops
nothing at all. -/
theorem keepHighest_dropLowest_same_drops (rolls : List Dice.Die) (n : Nat) :
    Dice.applyOperation rolls { type := Dice.OpType.KeepHighest, count := n } =
      Dice.applyOperation rolls
        { type := Dice.OpType.DropLowest, count := (Dice.keptIndices rolls).length - n } ∧
    ((Dice.keptIndices rolls).length ≤ n →
      Dice.applyOperation rolls { type := Dice.OpType.KeepHighest, count := n } = rolls) := by
  constructor
  · by_cases hk : Dice.keptIndices rolls = []
    · simp [Dice.applyOperation, hk]
    · have hlen : (Dice.sortKeptIndices rolls).length = (Dice.keptIndices rolls).length :=
        List.length_insertionSort _ _
      simp only [Dice.applyOperation, if_neg hk]
      unfold Dice.applyOpWith
      by_cases hn : n < (Dice.sortKeptIndices rolls).length
      · have h1 : (Dice.keptIndices rolls).length - n ≤ (Dice.sortKeptIndices rolls).length := by
          omega
        simp only [if_pos hn, if_pos h1, hlen]
        rw [if_pos (show n < (Dice.keptIndices rolls).length by omega),
          if_pos (show (Dice.keptIndices rolls).length - n ≤ (Dice.keptIndices rolls).length by
            omega)]
      · have h0 : (Dice.keptIndices rolls).length - n = 0 := by
          omega
        have h1 : (Dice.keptIndices rolls).length - n ≤ (Dice.sortKeptIndices rolls).length := by
          omega
        simp only [if_neg hn, if_pos h1, h0, List.take_zero]
        simp
  · intro hle
    exact Dice.applyOperation_noop_of_unsat rolls _ hle

/-- Claim C5 (witness): one kept die, `n = 1`: `KeepHighest(1)` is a no-op
and agrees with `DropLowest(0)`. -/
theorem keepHighest_dropLowest_same_drops_witness :
    Dice.applyOperation [⟨3, 6, true⟩] { type := Dice.OpType.KeepHighest, count := 1 } =
      Dice.applyOperation [⟨3, 6, true⟩]
        { type := Dice.OpType.DropLowest, count := (Dice.keptIndices [⟨3, 6, true⟩]).length - 1 } ∧
    Dice.applyOperation [⟨3, 6, true⟩] { type := Dice.OpType.KeepHighest, count := 1 } =
      [⟨3, 6, true⟩] :=
  ⟨(keepHighest_dropLowest_same_drops [⟨3, 6, true⟩] 1).1,
   (keepHighest_dropLowest_same_drops [⟨3, 6, true⟩] 1).2
      (by show (Dice.keptIndices [⟨3, 6, true⟩]).length ≤ 1; decide)⟩

set_option maxRecDepth 40000 in
/-- Claim C8 (counterexample): the claim quantifies over every Expression
with `Sides = 6, Count = 100`, but with a `KeepHighest 1` operation and
all-zero draws (every die rolls 1) the kept total is 1, outside
`[100, 600]`. -/
theorem keptTotal_100d6_operation_counterexample :
    (Dice.RollExpression
        { Count := 100, Sides := 6, Modifier := 0,
          Operation := some ⟨Dice.OpType.KeepHighest, 1⟩, Advantage := false }
        (fun _ => 0)).map Dice.Result.KeptTotal = some 1 ∧
    ¬ (100 : Nat) ≤ 1 := by
  constructor
  · decide
  · decide

/-- Claim C8 (amended): for every Expression with `Sides = 6`, `Count = 100`
and no keep/drop operation, and every sequence of successful draws, the
kept total (before the modifier) lies in `[100, 600]`. -/
theorem keptTotal_100d6_range (e : Dice.Expression) (draws : Nat → Nat)
    (hS : e.Sides = 6) (hC : e.Count = 100) (hOp : e.Operation = none) :
    ∃ r, Dice.RollExpression e draws = some r ∧ 100 ≤ r.KeptTotal ∧ r.KeptTotal ≤ 600 := by
  have h3 : 2 ≤ e.Sides := by omega
  obtain ⟨rolls0, hroll, hlen, hprops⟩ := Dice.rollFrom_some e.Sides draws h3 (Dice.diceToRoll e) 0
  have hkept : ∀ d ∈ rolls0, d.Kept = true := fun d hd => (hprops d hd).1
  have hvals : ∀ d ∈ rolls0, 1 ≤ d.Value ∧ d.Value ≤ 6 := by
    intro d hd
    have h := hprops d hd
    exact ⟨h.2.1, hS ▸ h.2.2⟩
  have heval : Dice.RollExpression e draws =
      some { Exp := e
             Rolls := if e.Advantage then Dice.advantageStep rolls0 else rolls0
             KeptTotal := Dice.keptSum (if e.Advantage then Dice.advantageStep rolls0 else rolls0)
             Total := wrap64 (Dice.keptSum (if e.Advantage then Dice.advantageStep rolls0 else rolls0)
               + e.Modifier) } := by
    rw [Dice.rollExpression_some e draws rolls0 hroll, hOp]
  refine ⟨_, heval, ?_⟩
  show 100 ≤ Dice.keptSum (if e.Advantage then Dice.advantageStep rolls0 else rolls0) ∧
    Dice.keptSum (if e.Advantage then Dice.advantageStep rolls0 else rolls0) ≤ 600
  by_cases hA : e.Advantage
  · rw [if_pos hA]
    have hlen200 : rolls0.length = 2 * 100 := by
      rw [hlen]
      simp [Dice.diceToRoll, hA, hC]
    have hkc : Dice.keptCount (Dice.advantageStep rolls0) = 100 :=
      Dice.advantageStep_keptCount rolls0 100 hkept hlen200
    have hb := Dice.keptValuesSum_bounds (Dice.advantageStep rolls0) 6
      (Dice.advantageStep_values (fun v => 1 ≤ v ∧ v ≤ 6) rolls0 hvals)
    rw [hkc] at hb
    rw [Dice.keptSum_eq_of_le _ (by omega)]
    omega
  · rw [if_neg hA]
    have hkc : Dice.keptCount rolls0 = 100 := by
      unfold Dice.keptCount
      rw [Dice.filter_kept_of_all hkept, hlen]
      simp [Dice.diceToRoll, hA, hC]
    have hb := Dice.keptValuesSum_bounds rolls0 6 hvals
    rw [hkc] at hb
    rw [Dice.keptSum_eq_of_le _ (by omega)]
    omega

/-- Claim C8 (witness): the amended theorem at the concrete expression
`100d6` with all-zero draws (every die shows 1, kept total 100). -/
theorem keptTotal_100d6_range_witness :
    ∃ r, Dice.RollExpression
        { Count := 100, Sides := 6, Modifier := 0, Operation := none, Advantage := false }
        (fun _ => 0) = some r ∧ 100 ≤ r.KeptTotal ∧ r.KeptTotal ≤ 600 :=
  keptTotal_100d6_range
    { Count := 100, Sides := 6, Modifier := 0, Operation := none, Advantage := false }
    (fun _ => 0) rfl rfl rfl

/-- Claim C9: for every accepted notation and successful draw sequence, the
legacy `RollDice` returns exactly the conversion of the underlying
`RollExpression` result: its `Results` are the kept values in roll order,
its `Total` equals the result's `Total` (kept sum plus modifier), and its
`Count` is the expression's count; and for `"2d6kh1"` with draws `0, 1`
the `Results` length (1) differs from the `Count` field (2). -/
theorem rollDice_matches_rollExpression (text : List Nat) (draws : Nat → Nat)
    (e : Dice.Expression) (r : Dice.Result)
    (hp : Dice.Parse text = some e) (hr : Dice.RollExpression e draws = some r) :
    Dice.RollDice text draws = some (Dice.toRoll text e r) ∧
    (Dice.toRoll text e r).Results = (r.Rolls.filter fun d => d.Kept).map (fun d => d.Value) ∧
    (Dice.toRoll text e r).Total = r.Total ∧
    (Dice.toRoll text e r).Count = e.Count ∧
    ∃ roll2, Dice.RollDice [50, 100, 54, 107, 104, 49] (fun i => i) = some roll2 ∧
      roll2.Results.length ≠ roll2.Count := by
  obtain ⟨-, hkt, htot⟩ := Dice.rollExpression_inv e draws r hr
  refine ⟨?_, rfl, ?_, rfl, ?_⟩
  · unfold Dice.RollDice
    rw [hp]
    show (match Dice.RollExpression e draws with
          | none => none
          | some r => some (Dice.toRoll text e r)) = some (Dice.toRoll text e r)
    rw [hr]
  · show wrap64 (Dice.keptSum r.Rolls + e.Modifier) = r.Total
    rw [htot, hkt]
  · refine ⟨_, rfl, ?_⟩
    decide

/-- Claim C9 (witness): `"2d6"` with all-zero draws; the legacy roll carries
the two kept 1s and total 2. -/
theorem rollDice_matches_rollExpression_witness :
    Dice.RollDice [50, 100, 54] (fun _ => 0) =
      some (Dice.toRoll [50, 100, 54]
        { Count := 2, Sides := 6, Modifier := 0, Operation := none, Advantage := false }
        { Exp := { Count := 2, Sides := 6, Modifier := 0, Operation := none, Advantage := false }
          Rolls := [⟨1, 6, true⟩, ⟨1, 6, true⟩], KeptTotal := 2, Total := 2 }) ∧
    (Dice.toRoll [50, 100, 54]
        { Count := 2, Sides := 6, Modifier := 0, Operation := none, Advantage := false }
        { Exp := { Count := 2, Sides := 6, Modifier := 0, Operation := none, Advantage := false }
          Rolls := [⟨1, 6, true⟩, ⟨1, 6, true⟩], KeptTotal := 2, Total := 2 }).Results =
      (([⟨1, 6, true⟩, ⟨1, 6, true⟩] : List Dice.Die).filter fun d => d.Kept).map
        (fun d => d.Value) ∧
    (Dice.toRoll [50, 100, 54]
        { Count := 2, Sides := 6, Modifier := 0, Operation := none, Advantage := false }
        { Exp := { Count := 2, Sides := 6, Modifier := 0, Operation := none, Advantage := false }
          Rolls := [⟨1, 6, true⟩, ⟨1, 6, true⟩], KeptTotal := 2, Total := 2 }).Total = 2 ∧
    (Dice.toRoll [50, 100, 54]
        { Count := 2, Sides := 6, Modifier := 0, Operation := none, Advantage := false }
        { Exp := { Count := 2, Sides := 6, Modifier := 0, Operation := none, Advantage := false }
          Rolls := [⟨1, 6, true⟩, ⟨1, 6, true⟩], KeptTotal := 2, Total := 2 }).Count = 2 ∧
    ∃ roll2, Dice.RollDice [50, 100, 54, 107, 104, 49] (fun i => i) = some roll2 ∧
      roll2.Results.length ≠ roll2.Count :=
  rollDice_matches_rollExpression [50, 100, 54] (fun _ => 0)
    { Count := 2, Sides := 6, Modifier := 0, Operation := none, Advantage := false }
    { Exp := { Count := 2, Sides := 6, Modifier := 0, Operation := none, Advantage := false }
      Rolls := [⟨1, 6, true⟩, ⟨1, 6, true⟩], KeptTotal := 2, Total := 2 }
    (by decide) (by decide)

namespace Dice

/-- The embedding's sort satisfies everything Go's `sort.Slice` contract
promises: the result is a permutation of the kept indices.  (The contract
promises nothing about the relative order of equal values — `sort.Slice`
is documented as not stable — so no stronger property is assumed
anywhere.) -/
theorem sortKeptIndices_perm (rolls : List Die) :
    (sortKeptIndices rolls).Perm (keptIndices rolls) :=
  List.perm_insertionSort _ _

/-- The embedding's sort is nondecreasing under the source's value-only
comparator, the other half of the `sort.Slice` contract. -/
theorem sortKeptIndices_sorted (rolls : List Die) :
    List.Sorted (valueLE rolls) (sortKeptIndices rolls) :=
  List.sorted_insertionSort _ _

end Dice
